import Mathlib

/-!
Verification development for a tick-data feature-and-signal pipeline
(technical indicators, a windowing dataset, and a threshold-based signal
generator driving a learned forecaster).

The pandas/numpy computations of the source are shallowly embedded over
exact rationals.  Floating-point special values matter to the indicator
engine (NaN marks a missing value, and division by zero produces
infinities that later collapse back to finite numbers), so series entries
are modelled by `FV`: either NaN, a signed infinity, or a finite rational.
Rounding of IEEE doubles is not modelled; all claims under study concern
missingness patterns, exact threshold comparisons and structural facts,
none of which depend on rounding.
-/

/-- Model of a floating-point scalar as stored in a pandas series:
NaN (a missing value), a signed infinity (`inf true` is `+∞`), or a
finite value, represented exactly as a rational. -/
inductive FV where
  | nan : FV
  | inf : Bool → FV
  | fin : ℚ → FV
deriving DecidableEq, Repr

namespace FV

/-- IEEE negation: NaN propagates, infinities flip sign. -/
def neg : FV → FV
  | nan => nan
  | inf s => inf (!s)
  | fin q => fin (-q)

/-- IEEE addition on the modelled values: NaN propagates and
opposite infinities cancel to NaN. -/
def add : FV → FV → FV
  | nan, _ => nan
  | _, nan => nan
  | inf s, inf t => if s = t then inf s else nan
  | inf s, fin _ => inf s
  | fin _, inf t => inf t
  | fin a, fin b => fin (a + b)

/-- IEEE subtraction, defined as addition of the negation. -/
def sub (a b : FV) : FV := add a (neg b)

/-- IEEE multiplication: NaN propagates, `∞ * 0` is NaN, signs multiply. -/
def mul : FV → FV → FV
  | nan, _ => nan
  | _, nan => nan
  | inf s, inf t => inf (s = t)
  | inf s, fin q => if q = 0 then nan else inf (s = decide (0 < q))
  | fin q, inf t => if q = 0 then nan else inf (t = decide (0 < q))
  | fin a, fin b => fin (a * b)

/-- IEEE division: NaN propagates, `∞/∞` is NaN, a nonzero finite value
divided by zero gives a signed infinity, `0/0` gives NaN, and a finite
value divided by an infinity gives zero.  The zero divisor is treated as
`+0` (signed zeros are not modelled). -/
def div : FV → FV → FV
  | nan, _ => nan
  | _, nan => nan
  | inf _, inf _ => nan
  | inf s, fin q => inf (s = decide (0 ≤ q))
  | fin _, inf _ => fin 0
  | fin a, fin b => if b = 0 then (if a = 0 then nan else inf (decide (0 < a))) else fin (a / b)

/-- IEEE absolute value. -/
def abs : FV → FV
  | nan => nan
  | inf _ => inf true
  | fin q => fin |q|

/-- IEEE strict comparison: any comparison against NaN is false. -/
def lt : FV → FV → Bool
  | nan, _ => false
  | _, nan => false
  | inf s, inf t => !s && t
  | inf s, fin _ => !s
  | fin _, inf t => t
  | fin a, fin b => decide (a < b)

/-- Binary maximum as computed by `np.maximum`: NaN propagates. -/
def max2 : FV → FV → FV
  | nan, _ => nan
  | _, nan => nan
  | a, b => if lt a b then b else a

/-- Binary minimum with NaN propagation. -/
def min2 : FV → FV → FV
  | nan, _ => nan
  | _, nan => nan
  | a, b => if lt b a then b else a

/-- Recogniser for the missing value. -/
def isNan : FV → Bool
  | nan => true
  | _ => false

/-- Recogniser for finite values. -/
def isFin : FV → Bool
  | fin _ => true
  | _ => false

end FV

/-- Lift an exact rational series to the float model. -/
def liftQ (xs : List ℚ) : List FV := xs.map FV.fin

/-- Entry of a series at an index, NaN when out of range (series are
always indexed within range in the development). -/
def seriesGet (xs : List FV) (i : ℕ) : FV := xs.getD i FV.nan

/-- Embedding of `Series.diff()`: first entry missing, then successive
differences (NaN-propagating). -/
def diffF (xs : List FV) : List FV :=
  (List.range xs.length).map (fun i =>
    if i = 0 then FV.nan else FV.sub (seriesGet xs i) (seriesGet xs (i - 1)))

/-- Embedding of `Series.shift()`: every entry moves one step later and the
first entry becomes missing. -/
def shift1 (xs : List FV) : List FV :=
  (List.range xs.length).map (fun i =>
    if i = 0 then FV.nan else seriesGet xs (i - 1))

/-- The trailing window pandas rolling operations see at index `i`:
the last `min (i+1) w` entries ending at `i`. -/
def rollingWindow (xs : List FV) (w i : ℕ) : List FV :=
  (List.range (min (i + 1) w)).map (fun k => seriesGet xs (i + 1 - min (i + 1) w + k))

/-- Embedding of `Series.rolling(window=w, min_periods=mp).agg()`:
at each index the aggregate of the non-missing entries of the trailing
window, or NaN when fewer than `mp` of them are present. -/
def rollingF (agg : List FV → FV) (w mp : ℕ) (xs : List FV) : List FV :=
  (List.range xs.length).map (fun i =>
    let vals := (rollingWindow xs w i).filter (fun v => !v.isNan)
    if vals.length < mp then FV.nan else agg vals)

/-- Sum of a list of modelled floats. -/
def sumF (l : List FV) : FV := l.foldl FV.add (FV.fin 0)

/-- Mean aggregate used by `rolling(...).mean()`. -/
def meanF (l : List FV) : FV := FV.div (sumF l) (FV.fin (l.length : ℚ))

/-- Minimum aggregate used by `rolling(...).min()`. -/
def minF : List FV → FV
  | [] => FV.nan
  | x :: xs => xs.foldl FV.min2 x

/-- Maximum aggregate used by `rolling(...).max()`. -/
def maxF : List FV → FV
  | [] => FV.nan
  | x :: xs => xs.foldl FV.max2 x

/-- Embedding of `np.cumsum`: entry `i` is the sum of entries `0..i`. -/
def cumsumF (xs : List FV) : List FV :=
  (List.range xs.length).map (fun i => sumF (xs.take (i + 1)))

/-- Embedding of `Series.ewm(span=span, min_periods=mp).mean()` with the
pandas defaults `adjust=True`, `ignore_na=False`: at index `t` the
weighted mean of the non-missing observations so far, the observation at
`j` carrying weight `(1-α)^(t-j)` with `α = 2/(span+1)`; NaN until `mp`
non-missing observations have been seen. -/
def ewmMean (span mp : ℕ) (xs : List FV) : List FV :=
  let α : ℚ := 2 / (span + 1)
  (List.range xs.length).map (fun t =>
    let obs := (List.range (t + 1)).filterMap (fun j =>
      let v := seriesGet xs j
      if v.isNan then none else some ((1 - α) ^ (t - j), v))
    if obs.length < mp then FV.nan
    else FV.div (obs.foldl (fun acc wv => FV.add acc (FV.mul (FV.fin wv.1) wv.2)) (FV.fin 0))
      (FV.fin (obs.foldl (fun acc wv => acc + wv.1) 0)))

/-- Rolling mean of gains used inside `calculate_rsi`:
`(delta.where(delta > 0, 0)).rolling(window=period).mean()`.
`Series.where` replaces entries where the condition is false, so the
missing first difference (NaN, whose comparison is false) becomes `0`. -/
def rsiGainRoll (series : List FV) (period : ℕ) : List FV :=
  rollingF meanF period period
    ((diffF series).map (fun d => if FV.lt (FV.fin 0) d then d else FV.fin 0))

/-- Rolling mean of losses used inside `calculate_rsi`:
`(-delta.where(delta < 0, 0)).rolling(window=period).mean()`. -/
def rsiLossRoll (series : List FV) (period : ℕ) : List FV :=
  rollingF meanF period period
    (((diffF series).map (fun d => if FV.lt d (FV.fin 0) then d else FV.fin 0)).map FV.neg)

/-- Embedding of `calculate_rsi`: `rs = gain / loss` and
`100 - (100 / (1 + rs))`, elementwise in float arithmetic. -/
def calculate_rsi (series : List FV) (period : ℕ) : List FV :=
  (List.zipWith FV.div (rsiGainRoll series period) (rsiLossRoll series period)).map
    (fun rs => FV.sub (FV.fin 100) (FV.div (FV.fin 100) (FV.add (FV.fin 1) rs)))

/-- Embedding of `calculate_macd`: fast/slow EWMs of the series, their
difference, a signal EWM of that difference, and the histogram. -/
def calculate_macd (series : List FV) (fast_period slow_period signal_period : ℕ) :
    List FV × List FV × List FV :=
  let fast_ema := ewmMean fast_period fast_period series
  let slow_ema := ewmMean slow_period slow_period series
  let macd := List.zipWith FV.sub fast_ema slow_ema
  let signal := ewmMean signal_period signal_period macd
  (macd, signal, List.zipWith FV.sub macd signal)

/-- Embedding of `calculate_stochastic`:
`k = 100 * (close - lowest_low) / (highest_high - lowest_low)` over
rolling extrema, and `d` a 3-period rolling mean of `k`. -/
def calculate_stochastic (high low close : List FV) (period : ℕ) : List FV × List FV :=
  let lowest_low := rollingF minF period period low
  let highest_high := rollingF maxF period period high
  let k := List.zipWith3 (fun c ll hh =>
    FV.div (FV.mul (FV.fin 100) (FV.sub c ll)) (FV.sub hh ll)) close lowest_low highest_high
  (k, rollingF meanF 3 3 k)

/-- Embedding of `calculate_obv`:
`np.where(close.diff() > 0, volume, -volume).cumsum()`.  The comparison
against the missing first difference is false, so the first entry
contributes `-volume`. -/
def calculate_obv (close volume : List FV) : List FV :=
  cumsumF (List.zipWith (fun d v => if FV.lt (FV.fin 0) d then v else FV.neg v)
    (diffF close) volume)

/-- Embedding of `calculate_bollinger_bands`: 20-period rolling mean plus
and minus twice the rolling standard deviation.  The standard-deviation
aggregate is irrational in general, so it is taken as a parameter
`stdF`; every claim under study is insensitive to its numeric value. -/
def calculate_bollinger_bands (stdF : List FV → FV) (series : List FV) (period : ℕ) :
    List FV × List FV × List FV :=
  let sma := rollingF meanF period period series
  let std := rollingF stdF period period series
  let upper_band := List.zipWith FV.add sma (std.map (fun v => FV.mul v (FV.fin 2)))
  let lower_band := List.zipWith FV.sub sma (std.map (fun v => FV.mul v (FV.fin 2)))
  (upper_band, sma, lower_band)

/-- The true-range series of `calculate_atr`: the `np.maximum` of
`high - low`, `|high - close.shift()|` and `|low - close.shift()|`.
The shift makes the first entry missing. -/
def trueRange (high low close : List FV) : List FV :=
  let high_low := List.zipWith FV.sub high low
  let high_close := List.zipWith (fun a b => FV.abs (FV.sub a b)) high (shift1 close)
  let low_close := List.zipWith (fun a b => FV.abs (FV.sub a b)) low (shift1 close)
  List.zipWith FV.max2 (List.zipWith FV.max2 high_low high_close) low_close

/-- Embedding of `calculate_atr`: the `period`-rolling mean of the true
range. -/
def calculate_atr (high low close : List FV) (period : ℕ) : List FV :=
  rollingF meanF period period (trueRange high low close)

/-- Embedding of `calculate_adx`: directional movements clipped at zero
(the assignment `plus_dm[plus_dm < 0] = 0` leaves the missing first
entry missing, since `NaN < 0` is false), EWM-smoothed, divided by the
ATR, combined into DX and EWM-smoothed again. -/
def calculate_adx (high low close : List FV) (period : ℕ) : List FV :=
  let plus_dm := (diffF high).map (fun v => if FV.lt v (FV.fin 0) then FV.fin 0 else v)
  let minus_dm := ((diffF low).map FV.neg).map
    (fun v => if FV.lt v (FV.fin 0) then FV.fin 0 else v)
  let tr := calculate_atr high low close period
  let plus_di := List.zipWith (fun a t => FV.mul (FV.fin 100) (FV.div a t))
    (ewmMean period period plus_dm) tr
  let minus_di := List.zipWith (fun a t => FV.mul (FV.fin 100) (FV.div a t))
    (ewmMean period period minus_dm) tr
  let dx := List.zipWith (fun p m =>
    FV.mul (FV.fin 100) (FV.abs (FV.div (FV.sub p m) (FV.add p m)))) plus_di minus_di
  ewmMean period period dx

/-- Embedding of `data.dropna()` on the feature table: a row survives
exactly when every one of its entries is present (`none` models NaN; by
the time the table is scaled it holds no infinities, since the scaler
rejects them). -/
def dropnaRows (rows : List (List (Option ℚ))) : List (List ℚ) :=
  rows.filterMap (fun r => if h : ∀ x ∈ r, x.isSome then
    some (r.attach.map (fun x => (x.1).get (h x.1 x.2))) else none)

/-- Minimum of a rational column as `np.min` computes it (0 on an empty
column, which the scaler never sees). -/
def listMin : List ℚ → ℚ
  | [] => 0
  | x :: xs => xs.foldl min x

/-- Maximum of a rational column. -/
def listMax : List ℚ → ℚ
  | [] => 0
  | x :: xs => xs.foldl max x

/-- Column `j` of a row-major table. -/
def colOf (rows : List (List ℚ)) (j : ℕ) : List ℚ := rows.map (fun r => r.getD j 0)

/-- The affine map a fitted `MinMaxScaler` applies to column `j`:
`(x - min) / (max - min)`, dividing by 1 when the column is constant
(sklearn's zero-range guard). -/
def mmEntry (rows : List (List ℚ)) (j : ℕ) (x : ℚ) : ℚ :=
  let m := listMin (colOf rows j)
  let M := listMax (colOf rows j)
  (x - m) / (if M - m = 0 then 1 else M - m)

/-- Embedding of `MinMaxScaler().fit_transform` on a table: every entry
is rescaled by its own column's affine map. -/
def mmScale (rows : List (List ℚ)) : List (List ℚ) :=
  rows.map (fun r => (List.range r.length).map (fun j => mmEntry rows j (r.getD j 0)))

/-- The windowing dataset: the retained (NaN-free, re-scaled) feature
rows and the lookback length.  Feature order puts `Close` first, so the
target column is column 0. -/
structure TradeDataset where
  data : List (List ℚ)
  seq_len : ℕ

/-- Embedding of `TradeDataset.__init__`: drop incomplete rows, then fit
and apply a second `MinMaxScaler` over the retained rows. -/
def TradeDataset.make (raw : List (List (Option ℚ))) (seq_len : ℕ) : TradeDataset :=
  ⟨mmScale (dropnaRows raw), seq_len⟩

/-- Embedding of `TradeDataset.__len__`: `len(self.data) - self.seq_len`,
evaluated in ℤ as Python arithmetic does. -/
def TradeDataset.len (ds : TradeDataset) : ℤ :=
  (ds.data.length : ℤ) - (ds.seq_len : ℤ)

/-- Embedding of `TradeDataset.__getitem__`: the feature matrix of the
`seq_len` rows starting at `idx` (an `iloc` slice, which clips) paired
with the `Close` (column 0) of row `idx + seq_len`; `none` models the
`IndexError` the scalar `iloc` access raises out of range. -/
def TradeDataset.getItem (ds : TradeDataset) (idx : ℕ) : Option (List (List ℚ) × ℚ) :=
  match (ds.data[idx + ds.seq_len]?).bind (fun r => r[0]?) with
  | some y => some (((ds.data.drop idx).take ds.seq_len, y))
  | none => none

/-- Trading actions emitted by the signal generator. -/
inductive Signal where
  | BUY : Signal
  | SELL : Signal
  | HOLD : Signal
deriving DecidableEq, Repr

/-- The decision rule of `generate_signals_batch`:
BUY when `pred / close - 1 > threshold_buy`, else SELL when
`pred / close - 1 < threshold_sell`, else HOLD, in float arithmetic. -/
def signalOf (pred close : FV) (threshold_buy threshold_sell : ℚ) : Signal :=
  if FV.lt (FV.fin threshold_buy) (FV.sub (FV.div pred close) (FV.fin 1)) then Signal.BUY
  else if FV.lt (FV.sub (FV.div pred close) (FV.fin 1)) (FV.fin threshold_sell) then Signal.SELL
  else Signal.HOLD

/-- Row of the feature table at an index (the 12-column feature vector
`iloc` reads; rows are the feature columns in order, `Close` first). -/
def rowAt (data : List (List FV)) (i : ℕ) : List FV := data.getD i []

/-- The realized `Close` the generator compares against:
`data.iloc[i]['Close']`, column 0 of row `i`. -/
def closeAt (data : List (List FV)) (i : ℕ) : FV := (data.getD i []).getD 0 FV.nan

/-- Embedding of `data.iloc[i:i+len]` on rows: a clipping slice. -/
def sliceRows (data : List (List FV)) (i len : ℕ) : List (List FV) :=
  (data.drop i).take len

/-- Embedding of `torch.unsqueeze(1)` on a 2-D `[B, 12]` array: each row
becomes a batch element whose sequence has length 1. -/
def unsqueeze1 (x : List (List FV)) : List (List (List FV)) := x.map (fun row => [row])

/-- A forecaster maps one sequence of 12-column feature vectors to one
scalar; applying the network to a batch applies it to every batch
element independently (batch elements do not interact in a transformer
encoder). -/
def runModelBatch (M : List (List FV) → FV) (batch : List (List (List FV))) : List FV :=
  batch.map M

/-- Embedding of the inner `process_batch`: the 2-D batch is unsqueezed
to rank 3 and fed to the model. -/
def process_batch (M : List (List FV) → FV) (batch : List (List FV)) : List FV :=
  runModelBatch M (unsqueeze1 batch)

/-- Embedding of Python `range(0, m, bs)`: the multiples of `bs` below
`m` (empty when `m = 0`, i.e. when `len(data) - 60 <= 0`). -/
def batchStarts (m bs : ℕ) : List ℕ :=
  (List.range ((m + bs - 1) / bs)).map (fun k => k * bs)

/-- Embedding of `generate_signals_batch`: the series is cut into
`bs`-row slices starting at `batchStarts`, each slice is run through the
model, and the enumerated predictions are emitted as (signal,
prediction) pairs until the first window start `i` with `i + 60 >= n`
(the `break`), comparing each prediction against the realized `Close`
at `i + 60`. -/
def generate_signals_batch (M : List (List FV) → FV) (data : List (List FV))
    (bs : ℕ) (threshold_buy threshold_sell : ℚ) : List Signal × List FV :=
  let n := data.length
  let emitted := (batchStarts (n - 60) bs).flatMap (fun start =>
    let preds := process_batch M (sliceRows data start bs)
    (preds.enum.takeWhile (fun jp => decide (start + jp.1 + 60 < n))).map
      (fun jp => (signalOf jp.2 (closeAt data (start + jp.1 + 60)) threshold_buy threshold_sell,
        jp.2)))
  (emitted.map Prod.fst, emitted.map Prod.snd)

/-- Embedding of `data['Signal'] = ['HOLD'] * 60 + signals`. -/
def outputSignal (M : List (List FV) → FV) (data : List (List FV))
    (bs : ℕ) (threshold_buy threshold_sell : ℚ) : List Signal :=
  List.replicate 60 Signal.HOLD ++ (generate_signals_batch M data bs threshold_buy threshold_sell).1

/-- Embedding of `data['Prediction'] = [None] * 60 + predictions`. -/
def outputPrediction (M : List (List FV) → FV) (data : List (List FV))
    (bs : ℕ) (threshold_buy threshold_sell : ℚ) : List (Option FV) :=
  List.replicate 60 (none : Option FV) ++
    ((generate_signals_batch M data bs threshold_buy threshold_sell).2.map some)

@[simp] lemma length_liftQ (xs : List ℚ) : (liftQ xs).length = xs.length := by
  simp [liftQ]

@[simp] lemma length_diffF (xs : List FV) : (diffF xs).length = xs.length := by
  simp [diffF]

@[simp] lemma length_shift1 (xs : List FV) : (shift1 xs).length = xs.length := by
  simp [shift1]

@[simp] lemma length_rollingF (agg : List FV → FV) (w mp : ℕ) (xs : List FV) :
    (rollingF agg w mp xs).length = xs.length := by
  simp [rollingF]

@[simp] lemma length_cumsumF (xs : List FV) : (cumsumF xs).length = xs.length := by
  simp [cumsumF]

@[simp] lemma length_ewmMean (span mp : ℕ) (xs : List FV) :
    (ewmMean span mp xs).length = xs.length := by
  simp [ewmMean]

@[simp] lemma length_rollingWindow (xs : List FV) (w i : ℕ) :
    (rollingWindow xs w i).length = min (i + 1) w := by
  simp [rollingWindow]

lemma FV.isNan_false_of_isFin {v : FV} (h : v.isFin = true) : v.isNan = false := by
  cases v <;> simp_all [FV.isFin, FV.isNan]

lemma FV.sub_fin_fin (a b : ℚ) : FV.sub (FV.fin a) (FV.fin b) = FV.fin (a - b) := by
  simp [FV.sub, FV.add, FV.neg]; ring

lemma FV.isFin_sub {a b : FV} (ha : a.isFin = true) (hb : b.isFin = true) :
    (FV.sub a b).isFin = true := by
  cases a <;> cases b <;> simp_all [FV.sub, FV.add, FV.neg, FV.isFin]

lemma FV.isFin_abs {a : FV} (ha : a.isFin = true) : (FV.abs a).isFin = true := by
  cases a <;> simp_all [FV.abs, FV.isFin]

lemma FV.isFin_max2 {a b : FV} (ha : a.isFin = true) (hb : b.isFin = true) :
    (FV.max2 a b).isFin = true := by
  cases a with
  | nan => simp [FV.isFin] at ha
  | inf s => simp [FV.isFin] at ha
  | fin x =>
    cases b with
    | nan => simp [FV.isFin] at hb
    | inf t => simp [FV.isFin] at hb
    | fin y =>
      have h : FV.max2 (FV.fin x) (FV.fin y) =
          if FV.lt (FV.fin x) (FV.fin y) then FV.fin y else FV.fin x := rfl
      rw [h]; split <;> rfl

lemma FV.max2_nan_right (a : FV) : FV.max2 a FV.nan = FV.nan := by
  cases a <;> rfl

lemma FV.max2_nan_left (a : FV) : FV.max2 FV.nan a = FV.nan := by
  cases a <;> rfl

lemma FV.isNan_add_of_fin_left {a b : FV} (ha : a.isFin = true) (hb : b.isNan = false) :
    (FV.add a b).isNan = false := by
  cases a <;> cases b <;> simp_all [FV.add, FV.isFin, FV.isNan] <;> split <;> simp [FV.isNan]

lemma FV.isNan_mul_fin_two {a : FV} (ha : a.isNan = false) :
    (FV.mul a (FV.fin 2)).isNan = false := by
  cases a <;> simp_all [FV.mul, FV.isNan] <;> split <;> simp_all [FV.isNan]

lemma foldl_min_le_init : ∀ (l : List ℚ) (a : ℚ), l.foldl min a ≤ a := by
  intro l
  induction l with
  | nil => intro a; simp
  | cons x l ih =>
    intro a
    calc (x :: l).foldl min a = l.foldl min (min a x) := rfl
    _ ≤ min a x := ih (min a x)
    _ ≤ a := min_le_left a x

lemma foldl_min_le_mem : ∀ (l : List ℚ) (a x : ℚ), x ∈ l → l.foldl min a ≤ x := by
  intro l
  induction l with
  | nil => intro a x hx; simp at hx
  | cons y l ih =>
    intro a x hx
    rcases List.mem_cons.mp hx with h | h
    · subst h
      calc (x :: l).foldl min a = l.foldl min (min a x) := rfl
      _ ≤ min a x := foldl_min_le_init l (min a x)
      _ ≤ x := min_le_right a x
    · exact ih (min a y) x h

lemma foldl_min_mem : ∀ (l : List ℚ) (a : ℚ), l.foldl min a = a ∨ l.foldl min a ∈ l := by
  intro l
  induction l with
  | nil => intro a; left; rfl
  | cons y l ih =>
    intro a
    rcases ih (min a y) with h | h
    · rcases min_cases a y with ⟨hm, _⟩ | ⟨hm, _⟩
      · left; show l.foldl min (min a y) = a; rw [h, hm]
      · right; show l.foldl min (min a y) ∈ y :: l; rw [h, hm]; exact List.mem_cons_self y l
    · right; exact List.mem_cons_of_mem y h

lemma foldl_max_ge_init : ∀ (l : List ℚ) (a : ℚ), a ≤ l.foldl max a := by
  intro l
  induction l with
  | nil => intro a; simp
  | cons x l ih =>
    intro a
    calc a ≤ max a x := le_max_left a x
    _ ≤ l.foldl max (max a x) := ih (max a x)
    _ = (x :: l).foldl max a := rfl

lemma foldl_max_ge_mem : ∀ (l : List ℚ) (a x : ℚ), x ∈ l → x ≤ l.foldl max a := by
  intro l
  induction l with
  | nil => intro a x hx; simp at hx
  | cons y l ih =>
    intro a x hx
    rcases List.mem_cons.mp hx with h | h
    · subst h
      calc x ≤ max a x := le_max_right a x
      _ ≤ l.foldl max (max a x) := foldl_max_ge_init l (max a x)
      _ = (x :: l).foldl max a := rfl
    · exact ih (max a y) x h

lemma foldl_max_mem : ∀ (l : List ℚ) (a : ℚ), l.foldl max a = a ∨ l.foldl max a ∈ l := by
  intro l
  induction l with
  | nil => intro a; left; rfl
  | cons y l ih =>
    intro a
    rcases ih (max a y) with h | h
    · rcases max_cases a y with ⟨hm, _⟩ | ⟨hm, _⟩
      · left; show l.foldl max (max a y) = a; rw [h, hm]
      · right; show l.foldl max (max a y) ∈ y :: l; rw [h, hm]; exact List.mem_cons_self y l
    · right; exact List.mem_cons_of_mem y h

lemma listMin_le_mem {l : List ℚ} {x : ℚ} (hx : x ∈ l) : listMin l ≤ x := by
  cases l with
  | nil => simp at hx
  | cons y l =>
    rcases List.mem_cons.mp hx with h | h
    · subst h; exact foldl_min_le_init l x
    · exact foldl_min_le_mem l y x h

lemma listMin_mem {l : List ℚ} (hl : l ≠ []) : listMin l ∈ l := by
  cases l with
  | nil => exact absurd rfl hl
  | cons y l =>
    rcases foldl_min_mem l y with h | h
    · rw [listMin, h]; exact List.mem_cons_self y l
    · exact List.mem_cons_of_mem y h

lemma listMax_ge_mem {l : List ℚ} {x : ℚ} (hx : x ∈ l) : x ≤ listMax l := by
  cases l with
  | nil => simp at hx
  | cons y l =>
    rcases List.mem_cons.mp hx with h | h
    · subst h; exact foldl_max_ge_init l x
    · exact foldl_max_ge_mem l y x h

lemma listMax_mem {l : List ℚ} (hl : l ≠ []) : listMax l ∈ l := by
  cases l with
  | nil => exact absurd rfl hl
  | cons y l =>
    rcases foldl_max_mem l y with h | h
    · rw [listMax, h]; exact List.mem_cons_self y l
    · exact List.mem_cons_of_mem y h

lemma batchStarts_eq (m bs : ℕ) (hbs : 0 < bs) (hm : 0 < m) :
    batchStarts m bs = 0 :: (batchStarts (m - bs) bs).map (· + bs) := by
  have hcount : (m + bs - 1) / bs = (m - bs + bs - 1) / bs + 1 := by
    rcases le_or_lt m bs with h | h
    · have h1 : m + bs - 1 = (m - 1) + bs := by omega
      have h2 : m - bs = 0 := by omega
      rw [h1, Nat.add_div_right _ hbs, h2]
      have h3 : (m - 1) / bs = 0 := Nat.div_eq_of_lt (by omega)
      have h4 : (0 + bs - 1) / bs = 0 := Nat.div_eq_of_lt (by omega)
      rw [h3, h4]
    · have h1 : m + bs - 1 = (m - bs + bs - 1) + bs := by omega
      rw [h1, Nat.add_div_right _ hbs]
  rw [batchStarts, hcount, List.range_succ_eq_map]
  rw [batchStarts]
  simp only [List.map_cons, Nat.zero_mul, List.map_map]
  congr 1
  apply List.map_congr_left
  intro j _
  simp [Nat.succ_mul]

lemma flatMap_congr_fun {α β : Type} {l : List α} {f g : α → List β}
    (h : ∀ a ∈ l, f a = g a) : l.flatMap f = l.flatMap g := by
  induction l with
  | nil => rfl
  | cons a l ih =>
    rw [List.flatMap_cons, List.flatMap_cons, h a (List.mem_cons_self a l),
      ih (fun x hx => h x (List.mem_cons_of_mem a hx))]

lemma flatMap_batchStarts {α : Type} (bs : ℕ) (hbs : 0 < bs) :
    ∀ (m : ℕ) (item : ℕ → α),
    (batchStarts m bs).flatMap
        (fun s => (List.range (min bs (m - s))).map (fun j => item (s + j)))
      = (List.range m).map item := by
  intro m
  induction m using Nat.strong_induction_on with
  | _ m ih =>
    intro item
    rcases Nat.eq_zero_or_pos m with hm | hm
    · subst hm; simp [batchStarts]
    · rw [batchStarts_eq m bs hbs hm]
      simp only [List.flatMap_cons, List.flatMap_map, Function.comp, Nat.zero_add, Nat.sub_zero]
      have hfun : ∀ s ∈ batchStarts (m - bs) bs,
          (List.range (min bs (m - (s + bs)))).map (fun j => item (s + bs + j))
          = (List.range (min bs ((m - bs) - s))).map (fun j => item (bs + (s + j))) := by
        intro s _
        have h1 : m - (s + bs) = (m - bs) - s := by omega
        rw [h1]
        exact List.map_congr_left (fun j _ => by congr 1; omega)
      rw [flatMap_congr_fun hfun]
      have hrec := ih (m - bs) (by omega) (fun x => item (bs + x))
      simp only [] at hrec
      rw [hrec]
      rcases le_or_lt m bs with h | h
      · have h1 : min bs m = m := by omega
        have h2 : m - bs = 0 := by omega
        simp [h1, h2]
      · have h1 : min bs m = bs := by omega
        conv_rhs => rw [show m = bs + (m - bs) by omega, List.range_add]
        rw [List.map_append, List.map_map, h1]
        rfl

lemma takeWhile_enumFrom {α : Type} (c n : ℕ) :
    ∀ (l : List α) (k : ℕ),
    (List.enumFrom k l).takeWhile (fun jp => decide (c + jp.1 + 60 < n))
      = List.enumFrom k (l.take (n - 60 - c - k)) := by
  intro l
  induction l with
  | nil => intro k; simp
  | cons a l ihl =>
    intro k
    by_cases h : c + k + 60 < n
    · have ht : n - 60 - c - k = (n - 60 - c - (k + 1)) + 1 := by omega
      rw [ht]
      simp only [List.enumFrom, List.take_succ_cons, List.takeWhile_cons]
      simp [h, ihl (k + 1)]
    · have ht : n - 60 - c - k = 0 := by omega
      simp only [List.enumFrom, List.takeWhile_cons, ht, List.take_zero]
      simp [h]

lemma map_enumFrom_range {α β : Type} (g : ℕ × α → β) (h : ℕ → α) (L : ℕ) :
    (List.enumFrom 0 ((List.range L).map h)).map g = (List.range L).map (fun j => g (j, h j)) := by
  apply List.ext_getElem
  · simp
  · intro i h1 h2
    simp only [List.getElem_map, List.getElem_enumFrom, List.getElem_range, Nat.zero_add]

lemma sliceRows_eq (data : List (List FV)) (s bs : ℕ) :
    sliceRows data s bs
      = (List.range (min bs (data.length - s))).map (fun j => rowAt data (s + j)) := by
  apply List.ext_getElem
  · simp [sliceRows]
  · intro i h1 h2
    simp only [sliceRows, List.getElem_take, List.getElem_drop, List.getElem_map,
      List.getElem_range]
    have hin : s + i < data.length := by
      simp [sliceRows] at h1
      omega
    rw [rowAt, List.getD_eq_getElem data [] hin]

lemma process_batch_eq (M : List (List FV) → FV) (batch : List (List FV)) :
    process_batch M batch = batch.map (fun row => M [row]) := by
  rw [process_batch, runModelBatch, unsqueeze1, List.map_map]
  rfl

lemma gsb_eq (M : List (List FV) → FV) (data : List (List FV)) (bs : ℕ) (tb ts : ℚ)
    (hbs : 0 < bs) :
    generate_signals_batch M data bs tb ts =
      ((List.range (data.length - 60)).map (fun i =>
          signalOf (M [rowAt data i]) (closeAt data (i + 60)) tb ts),
       (List.range (data.length - 60)).map (fun i => M [rowAt data i])) := by
  have hbatch : ∀ s, ((process_batch M (sliceRows data s bs)).enum.takeWhile
      (fun jp => decide (s + jp.1 + 60 < data.length))).map
      (fun jp => (signalOf jp.2 (closeAt data (s + jp.1 + 60)) tb ts, jp.2))
      = (List.range (min bs ((data.length - 60) - s))).map (fun j =>
          (signalOf (M [rowAt data (s + j)]) (closeAt data ((s + j) + 60)) tb ts,
           M [rowAt data (s + j)])) := by
    intro s
    rw [process_batch_eq, sliceRows_eq, List.map_map]
    have henum : (((List.range (min bs (data.length - s))).map
        ((fun row => M [row]) ∘ fun j => rowAt data (s + j))).enum).takeWhile
        (fun jp => decide (s + jp.1 + 60 < data.length))
        = List.enumFrom 0 (((List.range (min bs (data.length - s))).map
            ((fun row => M [row]) ∘ fun j => rowAt data (s + j))).take
              (data.length - 60 - s - 0)) := by
      rw [show (((List.range (min bs (data.length - s))).map
        ((fun row => M [row]) ∘ fun j => rowAt data (s + j))).enum)
        = List.enumFrom 0 ((List.range (min bs (data.length - s))).map
            ((fun row => M [row]) ∘ fun j => rowAt data (s + j))) from rfl]
      exact takeWhile_enumFrom s data.length _ 0
    rw [henum, Nat.sub_zero, ← List.map_take, List.take_range]
    have hmin : min (data.length - 60 - s) (min bs (data.length - s))
        = min bs ((data.length - 60) - s) := by omega
    rw [hmin, map_enumFrom_range]
    apply List.map_congr_left
    intro j _
    rfl
  have hemit : (batchStarts (data.length - 60) bs).flatMap (fun start =>
      ((process_batch M (sliceRows data start bs)).enum.takeWhile
        (fun jp => decide (start + jp.1 + 60 < data.length))).map
        (fun jp => (signalOf jp.2 (closeAt data (start + jp.1 + 60)) tb ts, jp.2)))
      = (List.range (data.length - 60)).map (fun i =>
          (signalOf (M [rowAt data i]) (closeAt data (i + 60)) tb ts, M [rowAt data i])) := by
    rw [flatMap_congr_fun (fun s _ => hbatch s)]
    exact flatMap_batchStarts bs hbs (data.length - 60)
      (fun i => (signalOf (M [rowAt data i]) (closeAt data (i + 60)) tb ts, M [rowAt data i]))
  simp only [generate_signals_batch]
  rw [hemit, List.map_map, List.map_map]
  rfl

/-- A forecaster returning a constant, used to evaluate the generator on
concrete data. -/
def constModel2 : List (List FV) → FV := fun _ => FV.fin 2

/-- A forecaster returning the length of the sequence it is shown, used
to exhibit which sequence the generator feeds the model. -/
def lenModel : List (List FV) → FV := fun seq => FV.fin (seq.length : ℚ)

/-- A 61-row feature table of constant rows. -/
def demoRows61 : List (List FV) := List.replicate 61 (List.replicate 12 (FV.fin 1))

/-- A 62-row feature table of constant rows. -/
def demoRows62 : List (List FV) := List.replicate 62 (List.replicate 12 (FV.fin 1))

/-- C1: the prediction that `generate_signals_batch` compares against the
realized Close at `i + 60` is the forecaster's output on the singleton
sequence `[row i]` — the single feature row at the window start, promoted
to a length-1 sequence by `unsqueeze(1)` — and not the forecaster's
output on the 60-row window `i..i+59` the claim describes. -/
theorem c1_prediction_is_single_row (M : List (List FV) → FV) (data : List (List FV))
    (bs : ℕ) (tb ts : ℚ) (hbs : 0 < bs) (i : ℕ) (hi : i < data.length - 60) :
    (generate_signals_batch M data bs tb ts).2[i]? = some (M [rowAt data i]) := by
  rw [gsb_eq M data bs tb ts hbs]
  simp [List.getElem?_range, hi]

/-- Witness for C1, with the forecaster that reports the length of the
sequence it receives: the emitted prediction is 1 (a single row), while
the same forecaster on the 60-row window of the claim reports 60. -/
theorem c1_prediction_is_single_row_witness :
    (generate_signals_batch lenModel demoRows62 512 (1/200) (-(1/200))).2[0]?
        = some (FV.fin 1)
    ∧ lenModel (sliceRows demoRows62 0 60) = FV.fin 60 := by
  constructor
  · have h := c1_prediction_is_single_row lenModel demoRows62 512 (1/200) (-(1/200))
      (by decide) 0 (by decide)
    simpa [lenModel] using h
  · decide

/-- C2: the decision rule of `generate_signals_batch` on a finite
prediction `p` and a nonzero realized close `c` emits BUY exactly when
`p/c - 1 > 0.005`, SELL exactly when `p/c - 1 < -0.005`, and HOLD
exactly otherwise. -/
theorem c2_threshold_rule (p c : ℚ) (hc : c ≠ 0) :
    (signalOf (FV.fin p) (FV.fin c) (1/200) (-(1/200)) = Signal.BUY ↔ 1/200 < p / c - 1)
    ∧ (signalOf (FV.fin p) (FV.fin c) (1/200) (-(1/200)) = Signal.SELL ↔ p / c - 1 < -(1/200))
    ∧ (signalOf (FV.fin p) (FV.fin c) (1/200) (-(1/200)) = Signal.HOLD ↔
        ¬ (1/200 < p / c - 1) ∧ ¬ (p / c - 1 < -(1/200))) := by
  have hdiv : FV.div (FV.fin p) (FV.fin c) = FV.fin (p / c) := by simp [FV.div, hc]
  unfold signalOf
  rw [hdiv, FV.sub_fin_fin]
  simp only [FV.lt, decide_eq_true_eq]
  by_cases h1 : (1:ℚ)/200 < p / c - 1
  · have h2 : ¬ (p / c - 1 < -(1/200)) := by linarith
    rw [if_pos h1]
    exact ⟨⟨fun _ => h1, fun _ => rfl⟩,
      ⟨fun h => Signal.noConfusion h, fun h => absurd h h2⟩,
      ⟨fun h => Signal.noConfusion h, fun hx => absurd h1 hx.1⟩⟩
  · by_cases h2 : p / c - 1 < -(1/200)
    · rw [if_neg h1, if_pos h2]
      exact ⟨⟨fun h => Signal.noConfusion h, fun h => absurd h h1⟩,
        ⟨fun _ => h2, fun _ => rfl⟩,
        ⟨fun h => Signal.noConfusion h, fun hx => absurd h2 hx.2⟩⟩
    · rw [if_neg h1, if_neg h2]
      exact ⟨⟨fun h => Signal.noConfusion h, fun h => absurd h h1⟩,
        ⟨fun h => Signal.noConfusion h, fun h => absurd h h2⟩,
        ⟨fun _ => ⟨h1, h2⟩, fun _ => rfl⟩⟩

/-- Witness for C2 at the three inputs named by the claim:
prediction 110 against realized 100 is BUY, 90 against 100 is SELL, and
100.1 against 100 is HOLD. -/
theorem c2_threshold_rule_witness :
    signalOf (FV.fin 110) (FV.fin 100) (1/200) (-(1/200)) = Signal.BUY
    ∧ signalOf (FV.fin 90) (FV.fin 100) (1/200) (-(1/200)) = Signal.SELL
    ∧ signalOf (FV.fin (1001/10)) (FV.fin 100) (1/200) (-(1/200)) = Signal.HOLD := by
  refine ⟨?_, ?_, ?_⟩
  · exact (c2_threshold_rule 110 100 (by norm_num)).1.mpr (by norm_num)
  · exact (c2_threshold_rule 90 100 (by norm_num)).2.1.mpr (by norm_num)
  · exact (c2_threshold_rule (1001/10) 100 (by norm_num)).2.2.mpr
      (by constructor <;> norm_num)

/-- C5: the `Signal` and `Prediction` columns each have exactly one entry
per input row, and each of the first 60 rows holds the default HOLD with
no prediction. -/
theorem c5_output_alignment (M : List (List FV) → FV) (data : List (List FV)) (bs : ℕ)
    (tb ts : ℚ) (hbs : 0 < bs) (hn : 60 ≤ data.length) :
    (outputSignal M data bs tb ts).length = data.length
    ∧ (outputPrediction M data bs tb ts).length = data.length
    ∧ ∀ k, k < 60 → (outputSignal M data bs tb ts)[k]? = some Signal.HOLD
        ∧ (outputPrediction M data bs tb ts)[k]? = some (none : Option FV) := by
  have h := gsb_eq M data bs tb ts hbs
  refine ⟨?_, ?_, ?_⟩
  · rw [outputSignal, h]
    simp only [List.length_append, List.length_replicate, List.length_map, List.length_range]
    omega
  · rw [outputPrediction, h]
    simp only [List.length_append, List.length_replicate, List.length_map, List.length_range]
    omega
  · intro k hk
    constructor
    · rw [outputSignal, List.getElem?_append, List.length_replicate, if_pos hk,
        List.getElem?_replicate, if_pos hk]
    · rw [outputPrediction, List.getElem?_append, List.length_replicate, if_pos hk,
        List.getElem?_replicate, if_pos hk]

/-- Witness for C5 on a concrete 61-row table. -/
theorem c5_output_alignment_witness :
    (outputSignal constModel2 demoRows61 512 (1/200) (-(1/200))).length = 61
    ∧ (outputSignal constModel2 demoRows61 512 (1/200) (-(1/200)))[0]? = some Signal.HOLD := by
  have h := c5_output_alignment constModel2 demoRows61 512 (1/200) (-(1/200))
    (by decide) (by decide)
  exact ⟨h.1, (h.2.2 0 (by decide)).1⟩

/-- Counterexample to C6 as stated: on a 61-row table, row 60 — which is
among the last 60 rows of the output — carries the emitted signal (here
BUY) and a prediction, rather than remaining HOLD with no prediction.
The 60 default rows are prepended, so it is the first 60 rows, not the
last 60, that stay HOLD. -/
theorem c6_counterexample :
    demoRows61.length = 61
    ∧ (outputSignal constModel2 demoRows61 512 (1/200) (-(1/200)))[60]? = some Signal.BUY
    ∧ (outputPrediction constModel2 demoRows61 512 (1/200) (-(1/200)))[60]?
        = some (some (FV.fin 2)) := by
  have hlen : demoRows61.length = 61 := by simp [demoRows61]
  have h := gsb_eq constModel2 demoRows61 512 (1/200) (-(1/200)) (by norm_num)
  refine ⟨hlen, ?_, ?_⟩
  · rw [outputSignal, List.getElem?_append, List.length_replicate, if_neg (by omega), h]
    simp only [List.getElem?_map, hlen]
    rw [List.getElem?_range (by norm_num)]
    norm_num [constModel2, signalOf, FV.div, FV.sub, FV.add, FV.neg, FV.lt, closeAt,
      demoRows61, List.getD_eq_getElem?_getD, List.getElem?_replicate]
  · rw [outputPrediction, List.getElem?_append, List.length_replicate, if_neg (by omega), h]
    simp only [List.getElem?_map, hlen]
    rw [List.getElem?_range (by norm_num)]
    norm_num [constModel2]

/-- C6 amended: windows whose `i + 60` reaches past the series length are
skipped, so exactly `n - 60` (signal, prediction) pairs are emitted, for
the window starts `0..n-61`; after the 60 default rows are prepended,
each output row `r ≥ 60` carries the signal and prediction of window
start `r - 60` (compared against the realized Close at row `r`), so the
rows left at the default HOLD with no prediction are the first 60, not
the last 60. -/
theorem c6_amended_skip_and_alignment (M : List (List FV) → FV) (data : List (List FV))
    (bs : ℕ) (tb ts : ℚ) (hbs : 0 < bs) (hn : 60 ≤ data.length) :
    (generate_signals_batch M data bs tb ts).1.length = data.length - 60
    ∧ (generate_signals_batch M data bs tb ts).2.length = data.length - 60
    ∧ ∀ r, 60 ≤ r → r < data.length →
        (outputSignal M data bs tb ts)[r]? =
          some (signalOf (M [rowAt data (r - 60)]) (closeAt data r) tb ts)
        ∧ (outputPrediction M data bs tb ts)[r]? = some (some (M [rowAt data (r - 60)])) := by
  have h := gsb_eq M data bs tb ts hbs
  refine ⟨by rw [h]; simp, by rw [h]; simp, ?_⟩
  intro r h60 hr
  have hlt : r - 60 < data.length - 60 := by omega
  have hback : r - 60 + 60 = r := by omega
  constructor
  · rw [outputSignal, List.getElem?_append, List.length_replicate,
      if_neg (by omega : ¬ r < 60), h]
    rw [List.getElem?_map, List.getElem?_range hlt]
    simp [hback]
  · rw [outputPrediction, List.getElem?_append, List.length_replicate,
      if_neg (by omega : ¬ r < 60), h]
    rw [List.getElem?_map, List.getElem?_map, List.getElem?_range hlt]
    simp

/-- Witness for the amended C6 on the concrete 61-row table at row 60. -/
theorem c6_amended_skip_and_alignment_witness :
    (outputSignal constModel2 demoRows61 512 (1/200) (-(1/200)))[60]? =
      some (signalOf (constModel2 [rowAt demoRows61 0]) (closeAt demoRows61 60)
        (1/200) (-(1/200))) := by
  have h := (c6_amended_skip_and_alignment constModel2 demoRows61 512 (1/200) (-(1/200))
    (by norm_num) (by simp [demoRows61])).2.2 60 (by omega) (by simp [demoRows61])
  simpa using h.1

@[simp] lemma length_mmScale (rows : List (List ℚ)) : (mmScale rows).length = rows.length := by
  simp [mmScale]

lemma mem_mmScale_length {rows : List (List ℚ)} {r' : List ℚ} (h : r' ∈ mmScale rows) :
    ∃ r ∈ rows, r'.length = r.length := by
  rw [mmScale, List.mem_map] at h
  obtain ⟨r, hr, hr'⟩ := h
  subst hr'
  exact ⟨r, hr, by simp⟩

lemma mem_dropnaRows_length {raw : List (List (Option ℚ))} {r' : List ℚ}
    (h : r' ∈ dropnaRows raw) : ∃ r ∈ raw, r'.length = r.length := by
  rw [dropnaRows, List.mem_filterMap] at h
  obtain ⟨r, hr, hr'⟩ := h
  refine ⟨r, hr, ?_⟩
  by_cases hc : ∀ x ∈ r, x.isSome
  · rw [dif_pos hc] at hr'
    injection hr' with hr2
    subst hr2
    simp
  · rw [dif_neg hc] at hr'
    exact absurd hr' (by simp)

lemma colOf_mmScale {rows : List (List ℚ)} {j : ℕ} (h : ∀ r ∈ rows, j < r.length) :
    colOf (mmScale rows) j = (colOf rows j).map (mmEntry rows j) := by
  rw [colOf, mmScale, List.map_map, colOf, List.map_map]
  apply List.map_congr_left
  intro r hr
  have hj := h r hr
  show ((List.range r.length).map (fun j' => mmEntry rows j' (r.getD j' 0))).getD j 0
    = mmEntry rows j (r.getD j 0)
  rw [List.getD_eq_getElem _ _ (by simpa using hj)]
  simp

/-- C10: `__getitem__` is undefined whenever `idx + 60` reaches past the
available rows: the scalar `iloc` access of the target raises, so no
wrapped-but-wrong sample is produced. -/
theorem c10_getitem_bounds (d : List (List ℚ)) (i : ℕ) (h : d.length < i + 60) :
    TradeDataset.getItem ⟨d, 60⟩ i = none := by
  have hnone : d[i + 60]? = none := List.getElem?_eq_none (by omega)
  simp [TradeDataset.getItem, hnone]

/-- Witness for C10: a one-row dataset rejects the sample at index 0. -/
theorem c10_getitem_bounds_witness :
    TradeDataset.getItem ⟨[[(1 : ℚ)]], 60⟩ 0 = none :=
  c10_getitem_bounds [[(1 : ℚ)]] 0 (by norm_num)

/-- C3: the dataset length is the number of retained (complete) rows
minus 60, and each in-range `sample(i)` is the 60-by-12 matrix of the
dataset's rows `i..i+59` paired with the Close (column 0) of row
`i + 60`; in particular `sample(length()-1)` is the last valid window. -/
theorem c3_dataset_windowing (raw : List (List (Option ℚ)))
    (h12 : ∀ r ∈ raw, r.length = 12) :
    (TradeDataset.make raw 60).len = ((dropnaRows raw).length : ℤ) - 60
    ∧ ∀ i : ℕ, (i : ℤ) < (TradeDataset.make raw 60).len →
        ∃ w y, (TradeDataset.make raw 60).getItem i = some (w, y)
          ∧ w.length = 60
          ∧ (∀ r ∈ w, r.length = 12)
          ∧ (∀ k, k < 60 → w[k]? = (TradeDataset.make raw 60).data[i + k]?)
          ∧ ∃ row, (TradeDataset.make raw 60).data[i + 60]? = some row ∧ y = row.getD 0 0 := by
  constructor
  · simp [TradeDataset.make, TradeDataset.len]
  · intro i hi
    have hwide : ∀ r ∈ (TradeDataset.make raw 60).data, r.length = 12 := by
      intro r hr
      obtain ⟨r1, hr1, he1⟩ := mem_mmScale_length hr
      obtain ⟨r0, hr0, he0⟩ := mem_dropnaRows_length hr1
      rw [he1, he0]
      exact h12 r0 hr0
    have hlen : i + 60 < (TradeDataset.make raw 60).data.length := by
      have : (TradeDataset.make raw 60).len
          = ((TradeDataset.make raw 60).data.length : ℤ) - 60 := by
        simp [TradeDataset.len, TradeDataset.make]
      omega
    have hrow : (TradeDataset.make raw 60).data[i + 60]?
        = some ((TradeDataset.make raw 60).data.get ⟨i + 60, hlen⟩) :=
      List.getElem?_eq_getElem hlen
    have hrl : ((TradeDataset.make raw 60).data.get ⟨i + 60, hlen⟩).length = 12 :=
      hwide _ (List.getElem_mem hlen)
    have hy : ((TradeDataset.make raw 60).data.get ⟨i + 60, hlen⟩)[0]?
        = some (((TradeDataset.make raw 60).data.get ⟨i + 60, hlen⟩).get ⟨0, by omega⟩) :=
      List.getElem?_eq_getElem (by omega)
    refine ⟨((TradeDataset.make raw 60).data.drop i).take 60,
      ((TradeDataset.make raw 60).data.get ⟨i + 60, hlen⟩).get ⟨0, by omega⟩,
      ?_, ?_, ?_, ?_, ?_⟩
    · rw [TradeDataset.getItem]
      show (match ((TradeDataset.make raw 60).data[i + 60]?).bind (fun r => r[0]?) with
        | some y => some (((TradeDataset.make raw 60).data.drop i).take 60, y)
        | none => none) = _
      rw [hrow, Option.some_bind, hy]
    · simp
      omega
    · intro r hr
      exact hwide r (List.mem_of_mem_drop (List.mem_of_mem_take hr))
    · intro k hk
      rw [List.getElem?_take, if_pos hk, List.getElem?_drop]
    · exact ⟨_, hrow, by rw [List.getD_eq_getElem _ _ (by omega)]; rfl⟩

/-- A complete 61-row, 12-column table of constant entries. -/
def demoRaw61 : List (List (Option ℚ)) := List.replicate 61 (List.replicate 12 (some (1 : ℚ)))

/-- Witness for C3 on the concrete 61-row table at index 0. -/
theorem c3_dataset_windowing_witness :
    ∃ w y, (TradeDataset.make demoRaw61 60).getItem 0 = some (w, y)
      ∧ w.length = 60
      ∧ (∀ r ∈ w, r.length = 12)
      ∧ (∀ k, k < 60 → w[k]? = (TradeDataset.make demoRaw61 60).data[0 + k]?)
      ∧ ∃ row, (TradeDataset.make demoRaw61 60).data[0 + 60]? = some row
          ∧ y = row.getD 0 0 := by
  have h12 : ∀ r ∈ demoRaw61, r.length = 12 := by
    intro r hr
    simp [demoRaw61] at hr
    simp [hr]
  have hlen : (TradeDataset.make demoRaw61 60).len = 1 := by
    have : (dropnaRows demoRaw61).length = 61 := by decide
    simp [TradeDataset.make, TradeDataset.len, this]
  exact (c3_dataset_windowing demoRaw61 h12).2 0 (by rw [hlen]; norm_num)

/-- Two complete 12-column rows with differing values, on which the
second scaling visibly changes the stored features. -/
def demoRawDiff : List (List (Option ℚ)) :=
  [List.replicate 12 (some (1 : ℚ)), List.replicate 12 (some (3 : ℚ))]

/-- C4: the constructor's second `MinMaxScaler` fit over the NaN-dropped
rows makes every (non-constant) feature column of the dataset attain
minimum 0 and maximum 1 over the retained rows, and the values the model
trains on therefore differ from the once-scaled values of the same rows
in the global table the signal generator reads (shown on a concrete
table whose stored entry changes from 1 to 0). -/
theorem c4_second_scaling (raw : List (List (Option ℚ))) (j : ℕ)
    (h12 : ∀ r ∈ raw, r.length = 12) (hj : j < 12)
    (a b : ℚ) (ha : a ∈ colOf (dropnaRows raw) j) (hb : b ∈ colOf (dropnaRows raw) j)
    (hab : a ≠ b) :
    (∃ x ∈ colOf (TradeDataset.make raw 60).data j, x = 0)
    ∧ (∃ x ∈ colOf (TradeDataset.make raw 60).data j, x = 1)
    ∧ (∀ x ∈ colOf (TradeDataset.make raw 60).data j, 0 ≤ x ∧ x ≤ 1)
    ∧ ((TradeDataset.make demoRawDiff 60).data.getD 0 []).getD 0 0
        ≠ ((dropnaRows demoRawDiff).getD 0 []).getD 0 0 := by
  have hkw : ∀ r ∈ dropnaRows raw, j < r.length := by
    intro r hr
    obtain ⟨r0, hr0, he⟩ := mem_dropnaRows_length hr
    rw [he, h12 r0 hr0]
    exact hj
  have hcol : colOf (TradeDataset.make raw 60).data j
      = (colOf (dropnaRows raw) j).map (mmEntry (dropnaRows raw) j) := colOf_mmScale hkw
  have hma : listMin (colOf (dropnaRows raw) j) ≤ a := listMin_le_mem ha
  have hmb : listMin (colOf (dropnaRows raw) j) ≤ b := listMin_le_mem hb
  have haM : a ≤ listMax (colOf (dropnaRows raw) j) := listMax_ge_mem ha
  have hbM : b ≤ listMax (colOf (dropnaRows raw) j) := listMax_ge_mem hb
  have hmM : listMin (colOf (dropnaRows raw) j) < listMax (colOf (dropnaRows raw) j) := by
    rcases lt_or_ge (listMin (colOf (dropnaRows raw) j)) (listMax (colOf (dropnaRows raw) j))
      with h | h
    · exact h
    · exact absurd (by linarith : a = b) hab
  have hd : (if listMax (colOf (dropnaRows raw) j) - listMin (colOf (dropnaRows raw) j) = 0
      then 1 else listMax (colOf (dropnaRows raw) j) - listMin (colOf (dropnaRows raw) j))
      = listMax (colOf (dropnaRows raw) j) - listMin (colOf (dropnaRows raw) j) :=
    if_neg (by intro hz; linarith)
  have hne : colOf (dropnaRows raw) j ≠ [] := List.ne_nil_of_mem ha
  refine ⟨?_, ?_, ?_, ?_⟩
  · rw [hcol]
    refine ⟨mmEntry (dropnaRows raw) j (listMin (colOf (dropnaRows raw) j)),
      List.mem_map_of_mem _ (listMin_mem hne), ?_⟩
    rw [mmEntry]
    simp
  · rw [hcol]
    refine ⟨mmEntry (dropnaRows raw) j (listMax (colOf (dropnaRows raw) j)),
      List.mem_map_of_mem _ (listMax_mem hne), ?_⟩
    rw [mmEntry, hd]
    exact div_self (by intro hz; linarith)
  · rw [hcol]
    intro x hx
    obtain ⟨y, hy, hxy⟩ := List.mem_map.mp hx
    subst hxy
    rw [mmEntry, hd]
    have h1 : listMin (colOf (dropnaRows raw) j) ≤ y := listMin_le_mem hy
    have h2 : y ≤ listMax (colOf (dropnaRows raw) j) := listMax_ge_mem hy
    constructor
    · apply div_nonneg <;> linarith
    · rw [div_le_one (by linarith)]
      linarith
  · have hdrop : dropnaRows demoRawDiff
        = [List.replicate 12 (1 : ℚ), List.replicate 12 3] := by decide
    have hdata : (TradeDataset.make demoRawDiff 60).data
        = mmScale [List.replicate 12 (1 : ℚ), List.replicate 12 3] := by
      rw [TradeDataset.make, hdrop]
    rw [hdata, hdrop]
    norm_num [mmScale, mmEntry, colOf, listMin, listMax,
      List.getD_eq_getElem?_getD, List.getElem?_replicate, List.range_succ]

/-- Witness for C4 on the concrete two-row table (column 0 holds 1 and
3): the rescaled column attains 0 and 1. -/
theorem c4_second_scaling_witness :
    (∃ x ∈ colOf (TradeDataset.make demoRawDiff 60).data 0, x = 0)
    ∧ (∃ x ∈ colOf (TradeDataset.make demoRawDiff 60).data 0, x = 1) := by
  have h := c4_second_scaling demoRawDiff 0 (by decide) (by norm_num) 1 3
    (by decide) (by decide) (by norm_num)
  exact ⟨h.1, h.2.1⟩

lemma FV.add_nan_right (a : FV) : FV.add a FV.nan = FV.nan := by
  cases a <;> rfl

lemma FV.isNan_neg (a : FV) : (FV.neg a).isNan = a.isNan := by
  cases a <;> rfl

lemma seriesGet_liftQ {s : List ℚ} {j : ℕ} (h : j < s.length) :
    seriesGet (liftQ s) j = FV.fin s[j] := by
  rw [seriesGet, liftQ, List.getD_eq_getElem _ _ (by simpa using h)]
  simp

lemma foldl_add_fin : ∀ (l : List FV) (q : ℚ), (∀ v ∈ l, v.isFin = true) →
    ∃ s : ℚ, l.foldl FV.add (FV.fin q) = FV.fin s := by
  intro l
  induction l with
  | nil => intro q _; exact ⟨q, rfl⟩
  | cons a l ih =>
    intro q hl
    have ha := hl a (List.mem_cons_self a l)
    cases a with
    | nan => simp [FV.isFin] at ha
    | inf s => simp [FV.isFin] at ha
    | fin x =>
      have := ih (q + x) (fun v hv => hl v (List.mem_cons_of_mem _ hv))
      simpa [FV.add] using this

lemma foldl_add_fin_nonneg : ∀ (l : List FV) (q : ℚ), 0 ≤ q →
    (∀ v ∈ l, ∃ x : ℚ, 0 ≤ x ∧ v = FV.fin x) →
    ∃ s : ℚ, 0 ≤ s ∧ l.foldl FV.add (FV.fin q) = FV.fin s := by
  intro l
  induction l with
  | nil => intro q hq _; exact ⟨q, hq, rfl⟩
  | cons a l ih =>
    intro q hq hl
    obtain ⟨x, hx0, hx⟩ := hl a (List.mem_cons_self a l)
    subst hx
    have := ih (q + x) (by linarith) (fun v hv => hl v (List.mem_cons_of_mem _ hv))
    simpa [FV.add] using this

lemma meanF_isFin {l : List FV} (hne : l ≠ []) (h : ∀ v ∈ l, v.isFin = true) :
    (meanF l).isFin = true := by
  obtain ⟨s, hs⟩ := foldl_add_fin l 0 h
  rw [meanF, sumF, hs]
  have hlen : (l.length : ℚ) ≠ 0 := by
    simpa using List.length_pos.mpr hne |>.ne'
  simp [FV.div, hlen, FV.isFin]

lemma meanF_fin_nonneg {l : List FV} (hne : l ≠ [])
    (h : ∀ v ∈ l, ∃ x : ℚ, 0 ≤ x ∧ v = FV.fin x) :
    ∃ g : ℚ, 0 ≤ g ∧ meanF l = FV.fin g := by
  obtain ⟨s, hs0, hs⟩ := foldl_add_fin_nonneg l 0 le_rfl h
  have hlen : (0 : ℚ) < (l.length : ℚ) := by
    simpa using List.length_pos.mpr hne
  refine ⟨s / (l.length : ℚ), div_nonneg hs0 hlen.le, ?_⟩
  rw [meanF, sumF, hs]
  simp [FV.div, hlen.ne']

lemma rollingWindow_mem {xs : List FV} {w i : ℕ} {v : FV} (h : v ∈ rollingWindow xs w i) :
    ∃ j, i + 1 - min (i + 1) w ≤ j ∧ j ≤ i ∧ v = seriesGet xs j := by
  rw [rollingWindow, List.mem_map] at h
  obtain ⟨k, hk, hkv⟩ := h
  rw [List.mem_range] at hk
  exact ⟨i + 1 - min (i + 1) w + k, by omega, by omega, hkv.symm⟩

lemma rollingF_getD {agg : List FV → FV} {w mp : ℕ} {xs : List FV} {i : ℕ}
    (h : i < xs.length) :
    (rollingF agg w mp xs).getD i FV.nan =
      if ((rollingWindow xs w i).filter (fun v => !v.isNan)).length < mp then FV.nan
      else agg ((rollingWindow xs w i).filter (fun v => !v.isNan)) := by
  rw [List.getD_eq_getElem _ _ (by simpa using h)]
  simp [rollingF]

lemma rollingF_nan_short {agg : List FV → FV} {w mp : ℕ} {xs : List FV} {i : ℕ}
    (h : i < xs.length) (hshort : i + 1 < mp) :
    (rollingF agg w mp xs).getD i FV.nan = FV.nan := by
  rw [rollingF_getD h]
  have h1 : ((rollingWindow xs w i).filter (fun v => !v.isNan)).length
      ≤ (rollingWindow xs w i).length := List.length_filter_le _ _
  rw [length_rollingWindow] at h1
  rw [if_pos (by omega)]

lemma filter_eq_self_of_fin {l : List FV} (h : ∀ v ∈ l, v.isFin = true) :
    l.filter (fun v => !v.isNan) = l := by
  rw [List.filter_eq_self]
  intro v hv
  rw [FV.isNan_false_of_isFin (h v hv)]
  rfl

lemma rollingF_getD_full {agg : List FV → FV} {w : ℕ} {xs : List FV} {i : ℕ}
    (hw : 0 < w) (h : i < xs.length) (hiw : w ≤ i + 1)
    (hfin : ∀ v ∈ rollingWindow xs w i, v.isFin = true) :
    (rollingF agg w w xs).getD i FV.nan = agg (rollingWindow xs w i) := by
  rw [rollingF_getD h, filter_eq_self_of_fin hfin]
  rw [if_neg (by rw [length_rollingWindow]; omega)]

lemma rollingWindow_ne_nil {xs : List FV} {w i : ℕ} (hw : 0 < w) :
    rollingWindow xs w i ≠ [] := by
  intro h
  have := congrArg List.length h
  rw [length_rollingWindow] at this
  simp at this
  omega

lemma length_trueRange {high low close : List FV} (hh : high.length = close.length)
    (hl : low.length = close.length) : (trueRange high low close).length = close.length := by
  simp [trueRange, hh, hl]

lemma trueRange_get_nan {high low close : List FV} (hh : high.length = close.length)
    (hl : low.length = close.length) (h0 : 0 < close.length) :
    seriesGet (trueRange high low close) 0 = FV.nan := by
  rw [seriesGet, List.getD_eq_getElem _ _ (by rw [length_trueRange hh hl]; exact h0)]
  simp only [trueRange, List.getElem_zipWith]
  have hb1 : 0 < (shift1 close).length := by simpa using h0
  have hb2 : 0 < high.length := by omega
  have hs : (shift1 close)[0] = FV.nan := by
    simp [shift1]
  rw [hs]
  rw [show FV.sub high[0] FV.nan = FV.nan by
    rw [FV.sub]; exact FV.add_nan_right _]
  rw [show FV.abs FV.nan = FV.nan from rfl, FV.max2_nan_right, FV.max2_nan_left]

lemma trueRange_get_fin {high low close : List FV} (hh : high.length = close.length)
    (hl : low.length = close.length)
    (hfh : ∀ v ∈ high, v.isFin = true) (hfl : ∀ v ∈ low, v.isFin = true)
    (hfc : ∀ v ∈ close, v.isFin = true)
    (j : ℕ) (h1 : 1 ≤ j) (hj : j < close.length) :
    (seriesGet (trueRange high low close) j).isFin = true := by
  rw [seriesGet, List.getD_eq_getElem _ _ (by rw [length_trueRange hh hl]; exact hj)]
  simp only [trueRange, List.getElem_zipWith]
  have hj0 : j ≠ 0 := by omega
  have hb1 : j < (shift1 close).length := by simpa using hj
  have hs : (shift1 close)[j] = seriesGet close (j - 1) := by
    simp [shift1, hj0]
  rw [hs]
  have hcfin : (seriesGet close (j - 1)).isFin = true := by
    rw [seriesGet, List.getD_eq_getElem _ _ (by omega)]
    exact hfc _ (List.getElem_mem _)
  exact FV.isFin_max2
    (FV.isFin_max2
      (FV.isFin_sub (hfh _ (List.getElem_mem _)) (hfl _ (List.getElem_mem _)))
      (FV.isFin_abs (FV.isFin_sub (hfh _ (List.getElem_mem _)) hcfin)))
    (FV.isFin_abs (FV.isFin_sub (hfl _ (List.getElem_mem _)) hcfin))

lemma atr_missing_iff {high low close : List FV} (hh : high.length = close.length)
    (hl : low.length = close.length)
    (hfh : ∀ v ∈ high, v.isFin = true) (hfl : ∀ v ∈ low, v.isFin = true)
    (hfc : ∀ v ∈ close, v.isFin = true)
    (i : ℕ) (hi : i < close.length) :
    ((calculate_atr high low close 14).getD i FV.nan).isNan = true ↔ i < 14 := by
  have hlen : (trueRange high low close).length = close.length := length_trueRange hh hl
  rw [calculate_atr]
  rcases lt_or_ge i 13 with h13 | h13
  · rw [rollingF_nan_short (by rw [hlen]; exact hi) (by omega)]
    simpa [FV.isNan] using by omega
  · rcases eq_or_lt_of_le h13 with h13e | h14
    · subst h13e
      have hmem : FV.nan ∈ rollingWindow (trueRange high low close) 14 13 := by
        rw [rollingWindow]
        refine List.mem_map.mpr ⟨0, List.mem_range.mpr (by norm_num), ?_⟩
        rw [show 13 + 1 - min (13 + 1) 14 + 0 = 0 by norm_num]
        exact trueRange_get_nan hh hl (by omega)
      have hflt : ((rollingWindow (trueRange high low close) 14 13).filter
          (fun v => !v.isNan)).length < (rollingWindow (trueRange high low close) 14 13).length :=
        List.length_filter_lt_length_iff_exists.mpr ⟨FV.nan, hmem, by simp [FV.isNan]⟩
      rw [length_rollingWindow] at hflt
      rw [rollingF_getD (by rw [hlen]; exact hi), if_pos (by omega)]
      simpa [FV.isNan] using by omega
    · have hwfin : ∀ v ∈ rollingWindow (trueRange high low close) 14 i, v.isFin = true := by
        intro v hv
        obtain ⟨j, hj1, hj2, hjv⟩ := rollingWindow_mem hv
        have hmin : min (i + 1) 14 = 14 := by omega
        rw [hmin] at hj1
        subst hjv
        exact trueRange_get_fin hh hl hfh hfl hfc j (by omega) (by omega)
      rw [rollingF_getD_full (by norm_num) (by rw [hlen]; exact hi) (by omega) hwfin]
      have hne : rollingWindow (trueRange high low close) 14 i ≠ [] :=
        rollingWindow_ne_nil (by norm_num)
      have := meanF_isFin hne hwfin
      rw [FV.isNan_false_of_isFin this]
      simpa using by omega

lemma FV.add_nan_left (a : FV) : FV.add FV.nan a = FV.nan := by
  cases a <;> rfl

lemma cumsumF_getD {xs : List FV} {i : ℕ} (h : i < xs.length) :
    (cumsumF xs).getD i FV.nan = sumF (xs.take (i + 1)) := by
  rw [List.getD_eq_getElem _ _ (by simpa using h)]
  simp [cumsumF]

lemma obv_not_nan (close volume : List FV) (hfv : ∀ v ∈ volume, v.isFin = true)
    (i : ℕ) (hi : i < (calculate_obv close volume).length) :
    ((calculate_obv close volume).getD i FV.nan).isNan = false := by
  rw [calculate_obv, length_cumsumF] at hi
  rw [calculate_obv, cumsumF_getD hi]
  have hpick : ∀ v ∈ List.zipWith (fun d v => if FV.lt (FV.fin 0) d then v else FV.neg v)
      (diffF close) volume, v.isFin = true := by
    intro v hv
    obtain ⟨k, hk, hkv⟩ := List.mem_iff_getElem.mp hv
    rw [List.getElem_zipWith] at hkv
    have hkb : k < volume.length := by simp at hk; omega
    have hvol : volume[k].isFin = true :=
      hfv _ (List.getElem_mem _)
    subst hkv
    split
    · exact hvol
    · revert hvol
      cases volume[k] <;> simp [FV.neg, FV.isFin]
  obtain ⟨s, hs⟩ := foldl_add_fin _ 0
    (fun v hv => hpick v (List.mem_of_mem_take hv))
  rw [sumF, hs]
  rfl

lemma getD_zipWith_of_lt {f : FV → FV → FV} {l1 l2 : List FV} {i : ℕ}
    (h1 : i < l1.length) (h2 : i < l2.length) :
    (List.zipWith f l1 l2).getD i FV.nan = f (l1.getD i FV.nan) (l2.getD i FV.nan) := by
  rw [List.getD_eq_getElem _ _ (by simp; omega), List.getElem_zipWith,
    ← List.getD_eq_getElem l1 FV.nan h1, ← List.getD_eq_getElem l2 FV.nan h2]

lemma getD_map_of_lt {f : FV → FV} {l : List FV} {i : ℕ} (h : i < l.length) :
    (l.map f).getD i FV.nan = f (l.getD i FV.nan) := by
  rw [List.getD_eq_getElem _ _ (by simpa using h), List.getElem_map,
    ← List.getD_eq_getElem l FV.nan h]

lemma bb_missing_iff (stdF : List FV → FV) (series : List FV)
    (hfs : ∀ v ∈ series, v.isFin = true)
    (hstd : ∀ l, l ≠ [] → (∀ v ∈ l, v.isNan = false) → (stdF l).isNan = false)
    (i : ℕ) (hi : i < series.length) :
    (((calculate_bollinger_bands stdF series 20).1.getD i FV.nan).isNan = true ↔ i < 19)
    ∧ (((calculate_bollinger_bands stdF series 20).2.1.getD i FV.nan).isNan = true ↔ i < 19)
    ∧ (((calculate_bollinger_bands stdF series 20).2.2.getD i FV.nan).isNan = true ↔ i < 19) := by
  have hslen : (rollingF meanF 20 20 series).length = series.length := by simp
  have hstdlen : (rollingF stdF 20 20 series).length = series.length := by simp
  have hsma : i < 19 → (rollingF meanF 20 20 series).getD i FV.nan = FV.nan :=
    fun h19 => rollingF_nan_short (by simpa using hi) (by omega)
  have hwfin : 19 ≤ i → ∀ v ∈ rollingWindow series 20 i, v.isFin = true := by
    intro h19 v hv
    obtain ⟨j, hj1, hj2, hjv⟩ := rollingWindow_mem hv
    subst hjv
    rw [seriesGet, List.getD_eq_getElem _ _ (by omega)]
    exact hfs _ (List.getElem_mem _)
  have hsma2 : 19 ≤ i → ((rollingF meanF 20 20 series).getD i FV.nan).isFin = true := by
    intro h19
    rw [rollingF_getD_full (by norm_num) hi (by omega) (hwfin h19)]
    exact meanF_isFin (rollingWindow_ne_nil (by norm_num)) (hwfin h19)
  have hstd2 : 19 ≤ i → ((rollingF stdF 20 20 series).getD i FV.nan).isNan = false := by
    intro h19
    rw [rollingF_getD_full (by norm_num) hi (by omega) (hwfin h19)]
    exact hstd _ (rollingWindow_ne_nil (by norm_num))
      (fun v hv => FV.isNan_false_of_isFin (hwfin h19 v hv))
  refine ⟨?_, ?_, ?_⟩
  · rw [show (calculate_bollinger_bands stdF series 20).1
        = List.zipWith FV.add (rollingF meanF 20 20 series)
            ((rollingF stdF 20 20 series).map (fun v => FV.mul v (FV.fin 2))) from rfl]
    rw [getD_zipWith_of_lt (by simpa using hi) (by simpa using hi),
      getD_map_of_lt (by simpa using hi)]
    rcases lt_or_ge i 19 with h19 | h19
    · rw [hsma h19, FV.add_nan_left]
      exact iff_of_true rfl h19
    · rw [FV.isNan_add_of_fin_left (hsma2 h19) (FV.isNan_mul_fin_two (hstd2 h19))]
      exact iff_of_false (by simp) (by omega)
  · rw [show (calculate_bollinger_bands stdF series 20).2.1
        = rollingF meanF 20 20 series from rfl]
    rcases lt_or_ge i 19 with h19 | h19
    · rw [hsma h19]
      exact iff_of_true rfl h19
    · rw [FV.isNan_false_of_isFin (hsma2 h19)]
      exact iff_of_false (by simp) (by omega)
  · rw [show (calculate_bollinger_bands stdF series 20).2.2
        = List.zipWith FV.sub (rollingF meanF 20 20 series)
            ((rollingF stdF 20 20 series).map (fun v => FV.mul v (FV.fin 2))) from rfl]
    rw [getD_zipWith_of_lt (by simpa using hi) (by simpa using hi),
      getD_map_of_lt (by simpa using hi)]
    rcases lt_or_ge i 19 with h19 | h19
    · rw [hsma h19]
      rw [show ∀ x, FV.sub FV.nan x = FV.nan from fun x => by cases x <;> rfl]
      exact iff_of_true rfl h19
    · rw [FV.sub]
      rw [FV.isNan_add_of_fin_left (hsma2 h19)
        (by rw [FV.isNan_neg]; exact FV.isNan_mul_fin_two (hstd2 h19))]
      exact iff_of_false (by simp) (by omega)

lemma gainList_entries (series : List ℚ) :
    ∀ v ∈ (diffF (liftQ series)).map (fun d => if FV.lt (FV.fin 0) d then d else FV.fin 0),
      ∃ x : ℚ, 0 ≤ x ∧ v = FV.fin x := by
  intro v hv
  obtain ⟨k, hk, hkv⟩ := List.mem_iff_getElem.mp hv
  have hk' : k < series.length := by simpa using hk
  rw [List.getElem_map] at hkv
  have hkd : k < (diffF (liftQ series)).length := by simpa using hk'
  have hd : (diffF (liftQ series))[k] =
      if k = 0 then FV.nan
      else FV.sub (seriesGet (liftQ series) k) (seriesGet (liftQ series) (k - 1)) := by
    simp [diffF]
  rw [hd] at hkv
  by_cases hk0 : k = 0
  · rw [if_pos hk0] at hkv
    rw [show FV.lt (FV.fin 0) FV.nan = false from rfl] at hkv
    simp at hkv
    exact ⟨0, le_rfl, hkv.symm⟩
  · rw [if_neg hk0, seriesGet_liftQ hk', seriesGet_liftQ (by omega), FV.sub_fin_fin] at hkv
    split at hkv
    · next h =>
      rw [show FV.lt (FV.fin 0) (FV.fin (series[k] - series[k-1]))
          = decide (0 < series[k] - series[k-1]) from rfl] at h
      exact ⟨series[k] - series[k-1], le_of_lt (of_decide_eq_true h), hkv.symm⟩
    · exact ⟨0, le_rfl, hkv.symm⟩

lemma lossList_entries (series : List ℚ) :
    ∀ v ∈ ((diffF (liftQ series)).map
        (fun d => if FV.lt d (FV.fin 0) then d else FV.fin 0)).map FV.neg,
      ∃ x : ℚ, 0 ≤ x ∧ v = FV.fin x := by
  intro v hv
  obtain ⟨k, hk, hkv⟩ := List.mem_iff_getElem.mp hv
  have hk' : k < series.length := by simpa using hk
  rw [List.getElem_map, List.getElem_map] at hkv
  have hkd : k < (diffF (liftQ series)).length := by simpa using hk'
  have hd : (diffF (liftQ series))[k] =
      if k = 0 then FV.nan
      else FV.sub (seriesGet (liftQ series) k) (seriesGet (liftQ series) (k - 1)) := by
    simp [diffF]
  rw [hd] at hkv
  by_cases hk0 : k = 0
  · rw [if_pos hk0] at hkv
    rw [show FV.lt FV.nan (FV.fin 0) = false from rfl] at hkv
    simp at hkv
    refine ⟨0, le_rfl, ?_⟩
    rw [← hkv]
    show FV.fin (-0) = FV.fin 0
    norm_num
  · rw [if_neg hk0, seriesGet_liftQ hk', seriesGet_liftQ (by omega), FV.sub_fin_fin] at hkv
    split at hkv
    · next h =>
      rw [show FV.lt (FV.fin (series[k] - series[k-1])) (FV.fin 0)
          = decide (series[k] - series[k-1] < 0) from rfl] at h
      refine ⟨-(series[k] - series[k-1]), by have := of_decide_eq_true h; linarith, ?_⟩
      rw [← hkv]
      rfl
    · refine ⟨0, le_rfl, ?_⟩
      rw [← hkv]
      show FV.fin (-0) = FV.fin 0
      norm_num

lemma rsi_roll_getD (series : List ℚ) (i : ℕ) (hi : i < series.length) :
    (i + 1 < 14 → (rsiGainRoll (liftQ series) 14).getD i FV.nan = FV.nan
      ∧ (rsiLossRoll (liftQ series) 14).getD i FV.nan = FV.nan)
    ∧ (14 ≤ i + 1 →
      (∃ g : ℚ, 0 ≤ g ∧ (rsiGainRoll (liftQ series) 14).getD i FV.nan = FV.fin g)
      ∧ (∃ l : ℚ, 0 ≤ l ∧ (rsiLossRoll (liftQ series) 14).getD i FV.nan = FV.fin l)) := by
  constructor
  · intro hshort
    exact ⟨rollingF_nan_short (by simpa using hi) hshort,
      rollingF_nan_short (by simpa using hi) hshort⟩
  · intro hfull
    have hwg : ∀ v ∈ rollingWindow ((diffF (liftQ series)).map
        (fun d => if FV.lt (FV.fin 0) d then d else FV.fin 0)) 14 i,
        ∃ x : ℚ, 0 ≤ x ∧ v = FV.fin x := by
      intro v hv
      obtain ⟨j, _, hj2, hjv⟩ := rollingWindow_mem hv
      subst hjv
      rw [seriesGet, List.getD_eq_getElem _ _ (by simpa using by omega : j < _)]
      exact gainList_entries series _ (List.getElem_mem _)
    have hwl : ∀ v ∈ rollingWindow (((diffF (liftQ series)).map
        (fun d => if FV.lt d (FV.fin 0) then d else FV.fin 0)).map FV.neg) 14 i,
        ∃ x : ℚ, 0 ≤ x ∧ v = FV.fin x := by
      intro v hv
      obtain ⟨j, _, hj2, hjv⟩ := rollingWindow_mem hv
      subst hjv
      rw [seriesGet, List.getD_eq_getElem _ _ (by simpa using by omega : j < _)]
      exact lossList_entries series _ (List.getElem_mem _)
    constructor
    · rw [rsiGainRoll, rollingF_getD_full (by norm_num) (by simpa using hi) hfull
        (fun v hv => ((hwg v hv).choose_spec.2 ▸ rfl))]
      exact meanF_fin_nonneg (rollingWindow_ne_nil (by norm_num)) hwg
    · rw [rsiLossRoll, rollingF_getD_full (by norm_num) (by simpa using hi) hfull
        (fun v hv => ((hwl v hv).choose_spec.2 ▸ rfl))]
      exact meanF_fin_nonneg (rollingWindow_ne_nil (by norm_num)) hwl

lemma rsi_getD_eq (series : List ℚ) (i : ℕ) (hi : i < series.length) :
    (calculate_rsi (liftQ series) 14).getD i FV.nan
      = FV.sub (FV.fin 100) (FV.div (FV.fin 100) (FV.add (FV.fin 1)
          (FV.div ((rsiGainRoll (liftQ series) 14).getD i FV.nan)
            ((rsiLossRoll (liftQ series) 14).getD i FV.nan)))) := by
  have hg : i < (rsiGainRoll (liftQ series) 14).length := by
    simp [rsiGainRoll]
    exact hi
  have hl : i < (rsiLossRoll (liftQ series) 14).length := by
    simp [rsiLossRoll]
    exact hi
  rw [calculate_rsi, List.getD_eq_getElem _ _ (by simpa [calculate_rsi] using
    (by simp [rsiGainRoll, rsiLossRoll]; omega : i < min (rsiGainRoll (liftQ series) 14).length
      (rsiLossRoll (liftQ series) 14).length))]
  rw [List.getElem_map, List.getElem_zipWith]
  rw [List.getD_eq_getElem _ _ hg, List.getD_eq_getElem _ _ hl]

/-- C9: every non-missing RSI value computed from a finite input series
lies in the interval `[0, 100]`. -/
theorem c9_rsi_bounded (series : List ℚ) (i : ℕ) (q : ℚ)
    (h : (calculate_rsi (liftQ series) 14).getD i FV.nan = FV.fin q) :
    0 ≤ q ∧ q ≤ 100 := by
  by_cases hi : i < series.length
  · rw [rsi_getD_eq series i hi] at h
    obtain ⟨hshort, hfull⟩ := rsi_roll_getD series i hi
    rcases lt_or_ge (i + 1) 14 with hc | hc
    · obtain ⟨hg, hl⟩ := hshort hc
      rw [hg, hl] at h
      rw [show FV.div FV.nan FV.nan = FV.nan from rfl, FV.add_nan_right,
        show FV.div (FV.fin 100) FV.nan = FV.nan from rfl,
        show FV.sub (FV.fin 100) FV.nan = FV.nan from FV.add_nan_right _] at h
      exact absurd h (by simp)
    · obtain ⟨⟨g, hg0, hg⟩, l, hl0, hl⟩ := hfull hc
      rw [hg, hl] at h
      by_cases hlz : l = 0
      · subst hlz
        by_cases hgz : g = 0
        · subst hgz
          rw [show FV.div (FV.fin 0) (FV.fin 0) = FV.nan by simp [FV.div],
            FV.add_nan_right, show FV.div (FV.fin 100) FV.nan = FV.nan from rfl,
            show FV.sub (FV.fin 100) FV.nan = FV.nan from FV.add_nan_right _] at h
          exact absurd h (by simp)
        · rw [show FV.div (FV.fin g) (FV.fin 0) = FV.inf (decide (0 < g)) by
              simp [FV.div, hgz],
            show decide (0 < g) = true from decide_eq_true (lt_of_le_of_ne hg0 (Ne.symm hgz)),
            show FV.add (FV.fin 1) (FV.inf true) = FV.inf true from rfl,
            show FV.div (FV.fin 100) (FV.inf true) = FV.fin 0 from rfl,
            FV.sub_fin_fin] at h
          have hq : q = 100 - 0 := (FV.fin.injEq _ _).mp h.symm
          rw [hq]
          norm_num
      · have hlpos : 0 < l := lt_of_le_of_ne hl0 (Ne.symm hlz)
        rw [show FV.div (FV.fin g) (FV.fin l) = FV.fin (g / l) by simp [FV.div, hlz]] at h
        rw [show FV.add (FV.fin 1) (FV.fin (g / l)) = FV.fin (1 + g / l) from rfl] at h
        have hrpos : 0 < 1 + g / l := by positivity
        rw [show FV.div (FV.fin 100) (FV.fin (1 + g / l)) = FV.fin (100 / (1 + g / l)) by
          simp [FV.div, hrpos.ne'], FV.sub_fin_fin] at h
        have hq : q = 100 - 100 / (1 + g / l) := (FV.fin.injEq _ _).mp h.symm
        have hdle : 100 / (1 + g / l) ≤ 100 := by
          rw [div_le_iff hrpos]
          nlinarith [div_nonneg hg0 hlpos.le]
        have hdpos : 0 < 100 / (1 + g / l) := by positivity
        constructor
        · rw [hq]; linarith
        · rw [hq]; linarith
  · have hlen : (calculate_rsi (liftQ series) 14).length ≤ i := by
      simp [calculate_rsi, rsiGainRoll, rsiLossRoll]
      omega
    rw [List.getD_eq_default _ _ hlen] at h
    exact absurd h (by simp)

/-- A strictly increasing 15-entry price series: every 14-period rolling
loss beyond warm-up is zero while the rolling gain is positive. -/
def demoSeries15 : List ℚ := [0, 1, 2, 3, 4, 5, 6, 7, 8, 9, 10, 11, 12, 13, 14]

/-- Witness for C9 at the strictly increasing series: the RSI at index 13
is the saturated value 100, which the bound theorem places in [0, 100]. -/
theorem c9_rsi_bounded_witness :
    (calculate_rsi (liftQ demoSeries15) 14).getD 13 FV.nan = FV.fin 100
    ∧ (0 ≤ (100 : ℚ) ∧ (100 : ℚ) ≤ 100) := by
  have heval : (calculate_rsi (liftQ demoSeries15) 14).getD 13 FV.nan = FV.fin 100 := by
    norm_num [demoSeries15, calculate_rsi, rsiGainRoll, rsiLossRoll, rollingF, rollingWindow,
      diffF, seriesGet, liftQ, meanF, sumF, FV.lt, FV.neg, FV.add, FV.div, FV.sub, FV.isNan,
      List.range_succ, List.getD_eq_getElem?_getD]
  exact ⟨heval, c9_rsi_bounded demoSeries15 13 100 heval⟩

/-- Counterexample to C8 as stated: on the strictly increasing series the
14-period rolling loss at index 13 is zero, yet the RSI there is the
ordinary finite value 100 — not a propagatable missing value.  (The
infinite `rs` collapses through `100 - 100/(1 + rs)` back to 100.) -/
theorem c8_counterexample :
    (rsiLossRoll (liftQ demoSeries15) 14).getD 13 FV.nan = FV.fin 0
    ∧ (calculate_rsi (liftQ demoSeries15) 14).getD 13 FV.nan = FV.fin 100
    ∧ (FV.fin 100).isNan = false := by
  refine ⟨?_, ?_, rfl⟩
  · norm_num [demoSeries15, rsiLossRoll, rollingF, rollingWindow, diffF, seriesGet, liftQ,
      meanF, sumF, FV.lt, FV.neg, FV.add, FV.div, FV.isNan, FV.sub,
      List.range_succ, List.getD_eq_getElem?_getD]
  · norm_num [demoSeries15, calculate_rsi, rsiGainRoll, rsiLossRoll, rollingF, rollingWindow,
      diffF, seriesGet, liftQ, meanF, sumF, FV.lt, FV.neg, FV.add, FV.div, FV.sub, FV.isNan,
      List.range_succ, List.getD_eq_getElem?_getD]

/-- C8 amended: when the 14-period rolling loss at an index is zero, the
RSI there is missing (NaN, from `rs = 0/0`) exactly when the rolling gain
is also zero; when the gain is positive, `rs` is `+∞` and the RSI
evaluates to the ordinary value 100.  In neither case does the
computation fail: the division by zero only produces these values. -/
theorem c8_amended_loss_zero (series : List ℚ) (i : ℕ)
    (hl : (rsiLossRoll (liftQ series) 14).getD i FV.nan = FV.fin 0) :
    (calculate_rsi (liftQ series) 14).getD i FV.nan
      = (if (rsiGainRoll (liftQ series) 14).getD i FV.nan = FV.fin 0 then FV.nan
         else FV.fin 100) := by
  by_cases hi : i < series.length
  · obtain ⟨hshort, hfull⟩ := rsi_roll_getD series i hi
    rcases lt_or_ge (i + 1) 14 with hc | hc
    · exact absurd ((hshort hc).2.symm.trans hl) (by simp)
    · obtain ⟨⟨g, hg0, hg⟩, l, hl0, hlr⟩ := hfull hc
      rw [rsi_getD_eq series i hi, hl, hg]
      by_cases hgz : g = 0
      · subst hgz
        rw [if_pos rfl]
        rw [show FV.div (FV.fin 0) (FV.fin 0) = FV.nan by simp [FV.div],
          FV.add_nan_right, show FV.div (FV.fin 100) FV.nan = FV.nan from rfl]
        exact FV.add_nan_right _
      · rw [if_neg (by simp [hgz])]
        rw [show FV.div (FV.fin g) (FV.fin 0) = FV.inf (decide (0 < g)) by
            simp [FV.div, hgz],
          show decide (0 < g) = true from decide_eq_true (lt_of_le_of_ne hg0 (Ne.symm hgz)),
          show FV.add (FV.fin 1) (FV.inf true) = FV.inf true from rfl,
          show FV.div (FV.fin 100) (FV.inf true) = FV.fin 0 from rfl,
          FV.sub_fin_fin]
        norm_num
  · have hlen : (rsiLossRoll (liftQ series) 14).length ≤ i := by
      simp [rsiLossRoll]
      omega
    rw [List.getD_eq_default _ _ hlen] at hl
    exact absurd hl (by simp)

/-- Witness for the amended C8 at the strictly increasing series: the
loss is zero at index 13 and the theorem computes the RSI there. -/
theorem c8_amended_loss_zero_witness :
    (calculate_rsi (liftQ demoSeries15) 14).getD 13 FV.nan
      = (if (rsiGainRoll (liftQ demoSeries15) 14).getD 13 FV.nan = FV.fin 0 then FV.nan
         else FV.fin 100) := by
  apply c8_amended_loss_zero demoSeries15 13
  norm_num [demoSeries15, rsiLossRoll, rollingF, rollingWindow, diffF, seriesGet, liftQ,
    meanF, sumF, FV.lt, FV.neg, FV.add, FV.div, FV.isNan, FV.sub,
    List.range_succ, List.getD_eq_getElem?_getD]

lemma length_zipWith3 {α β γ δ : Type} (f : α → β → γ → δ) :
    ∀ (l1 : List α) (l2 : List β) (l3 : List γ),
    (List.zipWith3 f l1 l2 l3).length = min l1.length (min l2.length l3.length) := by
  intro l1
  induction l1 with
  | nil => intro l2 l3; simp [List.zipWith3]
  | cons a l1 ih =>
    intro l2 l3
    cases l2 with
    | nil => simp [List.zipWith3]
    | cons b l2 =>
      cases l3 with
      | nil => simp [List.zipWith3]
      | cons c l3 =>
        simp [List.zipWith3, ih]
        omega

/-- A 15-entry high series of constant finite values. -/
def demoH15 : List FV := List.replicate 15 (FV.fin 2)

/-- A 15-entry low series of constant finite values. -/
def demoL15 : List FV := List.replicate 15 (FV.fin 1)

/-- A 15-entry close series of constant finite values. -/
def demoC15 : List FV := List.replicate 15 (FV.fin 1)

lemma demoH15_fin : ∀ v ∈ demoH15, v.isFin = true := by
  intro v hv
  rw [demoH15] at hv
  rw [List.eq_of_mem_replicate hv]
  rfl

lemma demoL15_fin : ∀ v ∈ demoL15, v.isFin = true := by
  intro v hv
  rw [demoL15] at hv
  rw [List.eq_of_mem_replicate hv]
  rfl

lemma demoC15_fin : ∀ v ∈ demoC15, v.isFin = true := by
  intro v hv
  rw [demoC15] at hv
  rw [List.eq_of_mem_replicate hv]
  rfl

/-- Counterexample to C7 as stated: on a 15-row series of finite inputs,
`calculate_atr` with period 14 is still missing at index 13 — the
`period - 1`-th entry, which the claim says is the first defined one —
because the previous-close shift makes the first true range missing;
the first defined ATR entry is index 14. -/
theorem c7_counterexample :
    ((calculate_atr demoH15 demoL15 demoC15 14).getD 13 FV.nan).isNan = true
    ∧ ((calculate_atr demoH15 demoL15 demoC15 14).getD 14 FV.nan).isNan = false := by
  have hlen : demoC15.length = 15 := by simp [demoC15]
  have h13 := atr_missing_iff (by simp [demoH15, demoC15]) (by simp [demoL15, demoC15])
    demoH15_fin demoL15_fin demoC15_fin 13 (by omega)
  have h14 := atr_missing_iff (by simp [demoH15, demoC15]) (by simp [demoL15, demoC15])
    demoH15_fin demoL15_fin demoC15_fin 14 (by omega)
  refine ⟨h13.mpr (by norm_num), ?_⟩
  rcases Bool.eq_false_or_eq_true (((calculate_atr demoH15 demoL15 demoC15 14).getD
    14 FV.nan).isNan) with hb | hb
  · exact absurd (h14.mp hb) (by norm_num)
  · exact hb

/-- C7 amended: every indicator's output has the input series' length,
but the uniform "exactly the first `period - 1` entries missing" fails:
ATR is missing exactly on its first `period` (14) indices, because the
previous-close shift leaves the first true range missing; OBV has no
missing entries at all; Bollinger bands are missing exactly on the first
`period - 1` (19) indices. -/
theorem c7_amended_lengths_and_warmup
    (series high low close volume : List FV) (stdF : List FV → FV)
    (hh : high.length = close.length) (hl : low.length = close.length)
    (hv : volume.length = close.length)
    (hfh : ∀ v ∈ high, v.isFin = true) (hfl : ∀ v ∈ low, v.isFin = true)
    (hfc : ∀ v ∈ close, v.isFin = true) (hfv : ∀ v ∈ volume, v.isFin = true)
    (hfs : ∀ v ∈ series, v.isFin = true)
    (hstd : ∀ l, l ≠ [] → (∀ v ∈ l, v.isNan = false) → (stdF l).isNan = false) :
    (calculate_rsi series 14).length = series.length
    ∧ (calculate_macd series 12 26 9).1.length = series.length
    ∧ (calculate_macd series 12 26 9).2.1.length = series.length
    ∧ (calculate_macd series 12 26 9).2.2.length = series.length
    ∧ (calculate_stochastic high low close 14).1.length = close.length
    ∧ (calculate_stochastic high low close 14).2.length = close.length
    ∧ (calculate_obv close volume).length = close.length
    ∧ (calculate_bollinger_bands stdF series 20).1.length = series.length
    ∧ (calculate_bollinger_bands stdF series 20).2.1.length = series.length
    ∧ (calculate_bollinger_bands stdF series 20).2.2.length = series.length
    ∧ (calculate_atr high low close 14).length = close.length
    ∧ (calculate_adx high low close 14).length = close.length
    ∧ (∀ i, i < close.length →
        (((calculate_atr high low close 14).getD i FV.nan).isNan = true ↔ i < 14))
    ∧ (∀ i, i < close.length →
        ((calculate_obv close volume).getD i FV.nan).isNan = false)
    ∧ (∀ i, i < series.length →
        ((((calculate_bollinger_bands stdF series 20).1.getD i FV.nan).isNan = true ↔ i < 19)
        ∧ (((calculate_bollinger_bands stdF series 20).2.1.getD i FV.nan).isNan = true ↔ i < 19)
        ∧ (((calculate_bollinger_bands stdF series 20).2.2.getD i FV.nan).isNan = true
            ↔ i < 19))) := by
  refine ⟨?_, ?_, ?_, ?_, ?_, ?_, ?_, ?_, ?_, ?_, ?_, ?_, ?_, ?_, ?_⟩
  · simp [calculate_rsi, rsiGainRoll, rsiLossRoll]
  · simp [calculate_macd]
  · simp [calculate_macd]
  · simp [calculate_macd]
  · simp [calculate_stochastic, length_zipWith3, hh, hl]
  · simp [calculate_stochastic, length_zipWith3, hh, hl]
  · simp [calculate_obv, hv]
  · simp [calculate_bollinger_bands]
  · simp [calculate_bollinger_bands]
  · simp [calculate_bollinger_bands]
  · rw [calculate_atr, length_rollingF, length_trueRange hh hl]
  · simp [calculate_adx, calculate_atr, trueRange, hh, hl]
  · intro i hi
    exact atr_missing_iff hh hl hfh hfl hfc i hi
  · intro i hi
    exact obv_not_nan close volume hfv i (by simp [calculate_obv, hv]; omega)
  · intro i hi
    exact bb_missing_iff stdF series hfs hstd i hi

/-- Witness for the amended C7, instantiated at the 15-row constant
tables with a trivially defined standard-deviation aggregate. -/
theorem c7_amended_lengths_and_warmup_witness :
    (calculate_rsi demoL15 14).length = demoL15.length
    ∧ (∀ i, i < demoC15.length →
        (((calculate_atr demoH15 demoL15 demoC15 14).getD i FV.nan).isNan = true ↔ i < 14))
    ∧ (∀ i, i < demoC15.length →
        ((calculate_obv demoC15 demoL15).getD i FV.nan).isNan = false) := by
  have h := c7_amended_lengths_and_warmup demoL15 demoH15 demoL15 demoC15 demoL15
    (fun _ => FV.fin 0)
    (by simp [demoH15, demoC15]) (by simp [demoL15, demoC15]) (by simp [demoL15, demoC15])
    demoH15_fin demoL15_fin demoC15_fin demoL15_fin demoL15_fin
    (fun _ _ _ => rfl)
  obtain ⟨h1, _, _, _, _, _, _, _, _, _, _, _, h13, h14, _⟩ := h
  exact ⟨h1, h13, h14⟩
